import Mathlib

/-!
Verification development for the interactive multigrid field/particle simulation
in `src/main.rs`.  The GPU kernels are shallowly embedded as pure Lean functions:
`u32` arithmetic is modelled as `Nat` with explicit reduction modulo `2 ^ 32`,
`f32` arithmetic is modelled over `ℚ`, textures are modelled as total functions
from coordinates to values, and a data-parallel dispatch is modelled as a fold
over an explicit list of per-thread write events (reads observe the state as of
dispatch start).
-/

namespace Limbo

/-- Grid linear size (`GRID_SIZE` in the source). -/
def GRID_SIZE : Nat := 128

/-- Window pixel scaling (`SCALING` in the source). -/
def SCALING : Nat := 8

/-- Number of pyramid levels (`DOWNSCALE_COUNT` in the source). -/
def DOWNSCALE_COUNT : Nat := 7

/-- Injected charge magnitude (`CHARGE` in the source). -/
def CHARGE : ℚ := 5

/-- One xor-with-right-shift step of the mixer: `x ^= x >> k`. -/
def xorShift (k x : Nat) : Nat := x ^^^ (x >>> k)

/-- One multiply step of the mixer: `x *= c` on `u32`, i.e. modulo `2 ^ 32`. -/
def mulStep (c x : Nat) : Nat := (x * c) % 2 ^ 32

/-- The avalanche mixer `hash` of the source: xorshift 17, multiply by
`0xed5ad4bb`, xorshift 11, multiply by `0xac4c1b51`, xorshift 15, multiply by
`0x31848bab`, xorshift 14, all on `u32`. -/
def hash (x : Nat) : Nat :=
  xorShift 14 (mulStep 0x31848bab (xorShift 15 (mulStep 0xac4c1b51
    (xorShift 11 (mulStep 0xed5ad4bb (xorShift 17 x))))))

/-- A scalar texture plane, one rational per cell. -/
abbrev ScalarField := Nat → Nat → ℚ

/-- A staggered vector texture plane: each cell stores the component crossing
its left edge (`.1`) and its top edge (`.2`). -/
abbrev VecField := Nat → Nat → ℚ × ℚ

/-- Discrete divergence of the staggered field at a cell: the right neighbor's
left-edge x component plus the bottom neighbor's top-edge y component minus the
cell's own left-edge x and top-edge y components. -/
def divergenceAt (field : VecField) (x y : Nat) : ℚ :=
  (field (x + 1) y).1 + (field x (y + 1)).2 - (field x y).1 - (field x y).2

/-- The `compute_divergence` kernel at one level, dispatched over `[0,size)²`:
each in-range cell computes `error = divergence - charge` and stores
`error * 1.9` when its coordinate parity `(x+y) % 2` matches `offset`, and `0`
otherwise; cells outside the dispatch range keep the previous residual. -/
def compute_divergence (size offset : Nat) (charges : ScalarField) (field : VecField)
    (derr : ScalarField) : ScalarField := fun x y =>
  if x < size ∧ y < size then
    let target_divergence := charges x y * 1
    let l := -(field x y).1
    let u := -(field x y).2
    let r := (field (x + 1) y).1
    let d := (field x (y + 1)).2
    let divergence := r + d + l + u
    let error := divergence - target_divergence
    if (x + y) % 2 = offset then error * (19 / 10) else 0
  else derr x y

/-- The everywhere-zero scalar plane. -/
def zeroScalar : ScalarField := fun _ _ => 0

/-- The staggered field whose left-edge x component at column `x` is `x`. -/
def exFieldX : VecField := fun x _ => ((x : ℚ), 0)

/-- The `upscale_field_kernel` from level `L+1` into level `L`, dispatched over
`[0,size)²`: the coarse cell is `pos / 2`; odd coordinates interpolate the two
adjacent coarse values along that axis; the result is blended as
`v / 2 * factor + old * (1 - factor)` with `factor = 1`. -/
def upscale_field_kernel (size : Nat) (coarse fine : VecField) : VecField := fun x y =>
  if x < size ∧ y < size then
    let rx := x / 2
    let ry := y / 2
    let v := coarse rx ry
    let factor : ℚ := 1
    let vx := if x % 2 = 1 then (v.1 + (coarse (rx + 1) ry).1) / 2 else v.1
    let vy := if y % 2 = 1 then (v.2 + (coarse rx (ry + 1)).2) / 2 else v.2
    let ov := fine x y
    (vx / 2 * factor + ov.1 * (1 - factor), vy / 2 * factor + ov.2 * (1 - factor))
  else fine x y

/-- The constant coarse field with left-edge x component 2. -/
def coarseTwo : VecField := fun _ _ => (2, 0)

/-- The everywhere-zero vector plane. -/
def zeroVecField : VecField := fun _ _ => (0, 0)

/-- A level-indexed pyramid of scalar planes. -/
abbrev Pyramid := Nat → ScalarField

/-- Sum of the four children `(2x,2y), (2x+1,2y), (2x,2y+1), (2x+1,2y+1)`. -/
def childSum (f : ScalarField) (x y : Nat) : ℚ :=
  f (2 * x) (2 * y) + f (2 * x + 1) (2 * y) + f (2 * x) (2 * y + 1) +
    f (2 * x + 1) (2 * y + 1)

/-- The charge and magnet source pyramids. -/
structure Sources where
  charges : Pyramid
  magnets : Pyramid

/-- The `downscale_charges_kernel` dispatched at `level` over `[0,size)²`: each
target cell receives the sum of its four children at `level - 1`, for both
`charges` and `magnets`; all other cells and levels are unchanged. -/
def downscale_charges_kernel (s : Sources) (level size : Nat) : Sources where
  charges := fun L x y =>
    if L = level ∧ x < size ∧ y < size then childSum (s.charges (level - 1)) x y
    else s.charges L x y
  magnets := fun L x y =>
    if L = level ∧ x < size ∧ y < size then childSum (s.magnets (level - 1)) x y
    else s.magnets L x y

/-- The first `k` steps (levels `1..k`, in increasing order) of the per-tick
downsample loop, each dispatched over `[0, GRID_SIZE >> level)²`. -/
def downsampleTo (s : Sources) : Nat → Sources
  | 0 => s
  | k + 1 => downscale_charges_kernel (downsampleTo s k) (k + 1) (GRID_SIZE >>> (k + 1))

/-- The whole per-tick downsample pass (`for i in 1..DOWNSCALE_COUNT`). -/
def downsample_pass (s : Sources) : Sources := downsampleTo s (DOWNSCALE_COUNT - 1)

/-- The all-ones source pyramids. -/
def onesSources : Sources := ⟨fun _ _ _ => 1, fun _ _ _ => 1⟩

/-- Gain applied to the field when updating particle velocity (`1.0 / 30.0`). -/
def GAIN : ℚ := 1 / 30

/-- Particle state: per-cell occupancy and per-cell stored velocity. -/
structure PState where
  particles : Nat → Nat → Bool
  particle_velocity : Nat → Nat → ℚ × ℚ

/-- The velocity a particle moves with: stored velocity plus the level-0 field
at the cell times the gain. -/
def velOf (st : PState) (field : VecField) (x y : Nat) : ℚ × ℚ :=
  ((st.particle_velocity x y).1 + (field x y).1 * GAIN,
    (st.particle_velocity x y).2 + (field x y).2 * GAIN)

/-- One axis of the stochastic step: sign from `movement > 0`, integer part of
the absolute movement, plus one more step when the uniform sample is below the
fractional part. -/
def stepOf (m r : ℚ) : Int :=
  let sign : Int := (if 0 < m then 1 else 0) * 2 - 1
  let a := |m|
  let i := ⌊a⌋
  let frac := a - (i : ℚ)
  (i + (if r < frac then 1 else 0)) * sign

/-- The `rand` input folding of tick, position and channel, on `u32`. -/
def rand (x y t c : Nat) : Nat :=
  hash ((t + x * GRID_SIZE + y * GRID_SIZE * GRID_SIZE + c * 1063) % 2 ^ 32)

/-- The `rand_f32` uniform sample: `rand` divided by `u32::MAX`. -/
def rand_f32 (x y t c : Nat) : ℚ := (rand x y t c : ℚ) / ((2 ^ 32 - 1 : Nat) : ℚ)

/-- The signed destination cell computed by `update_kernel` for the particle at
`(x,y)`: the position plus the per-axis stochastic step of `velocity * dt`,
with random channels 0 (x axis) and 1 (y axis). -/
def targetOf (st : PState) (field : VecField) (dt : ℚ) (t x y : Nat) : Int × Int :=
  let vel := velOf st field x y
  ((x : Int) + stepOf (vel.1 * dt) (rand_f32 x y t 0),
    (y : Int) + stepOf (vel.2 * dt) (rand_f32 x y t 1))

/-- Whether the computed destination of `(x,y)` lies inside the grid (the
negation of the early-return bounds check of `update_kernel`). -/
abbrev targetInGrid (st : PState) (field : VecField) (dt : ℚ) (t x y : Nat) : Prop :=
  ¬((targetOf st field dt t x y).1 < 0 ∨ (GRID_SIZE : Int) ≤ (targetOf st field dt t x y).1 ∨
    (targetOf st field dt t x y).2 < 0 ∨ (GRID_SIZE : Int) ≤ (targetOf st field dt t x y).2)

/-- The destination cell as unsigned coordinates. -/
def tgtPos (st : PState) (field : VecField) (dt : ℚ) (t x y : Nat) : Nat × Nat :=
  ((targetOf st field dt t x y).1.toNat, (targetOf st field dt t x y).2.toNat)

/-- A mover: an occupied cell whose computed destination lies inside the grid
and differs from its position. -/
abbrev isMover (st : PState) (field : VecField) (dt : ℚ) (t x y : Nat) : Prop :=
  st.particles x y = true ∧ targetInGrid st field dt t x y ∧
    tgtPos st field dt t x y ≠ (x, y)

/-- Occupancy write events `(cell, value)` performed by the `update_kernel`
thread at `(x,y)`: none when the cell is empty, the destination is out of the
grid (the whole update is dropped), or the destination equals the position;
otherwise set the destination then clear the source.  The velocity write at the
destination is commented out in the source, so no velocity event exists. -/
def threadWrites (st : PState) (field : VecField) (dt : ℚ) (t x y : Nat) :
    List ((Nat × Nat) × Bool) :=
  if st.particles x y = true then
    if (targetOf st field dt t x y).1 < 0 ∨
        (GRID_SIZE : Int) ≤ (targetOf st field dt t x y).1 ∨
        (targetOf st field dt t x y).2 < 0 ∨
        (GRID_SIZE : Int) ≤ (targetOf st field dt t x y).2 then []
    else if tgtPos st field dt t x y ≠ (x, y) then
      [(tgtPos st field dt t x y, true), ((x, y), false)]
    else []
  else []

/-- Replay a list of occupancy write events, later writes overriding earlier. -/
def applyWrites (occ : Nat → Nat → Bool) : List ((Nat × Nat) × Bool) → Nat → Nat → Bool
  | [] => occ
  | w :: ws => applyWrites (fun x y => if (x, y) = w.1 then w.2 else occ x y) ws

/-- The write events of a whole `update_kernel` dispatch, in the order of a
given thread schedule. -/
def scheduleWrites (st : PState) (field : VecField) (dt : ℚ) (t : Nat) :
    List (Nat × Nat) → List ((Nat × Nat) × Bool)
  | [] => []
  | p :: ps => threadWrites st field dt t p.1 p.2 ++ scheduleWrites st field dt t ps

/-- The particle state after an `update_kernel` dispatch executed under the
given thread schedule: all reads observe the state at dispatch start, the
scatter writes land in schedule order, and the velocity buffer is untouched
(its write is commented out in the source). -/
def update_kernel_run (st : PState) (field : VecField) (dt : ℚ) (t : Nat)
    (order : List (Nat × Nat)) : PState where
  particles := applyWrites st.particles (scheduleWrites st field dt t order)
  particle_velocity := st.particle_velocity

/-- The level-0 grid as a finset of cells. -/
def gridFinset : Finset (Nat × Nat) := Finset.range GRID_SIZE ×ˢ Finset.range GRID_SIZE

/-- Number of occupied cells of an occupancy plane. -/
def occCount (occ : Nat → Nat → Bool) : Nat :=
  (gridFinset.filter fun p => occ p.1 p.2 = true).card

/-- A single particle at the origin whose stored velocity points one cell left. -/
def stLeft : PState := ⟨fun x y => x == 0 && y == 0, fun _ _ => (-1, 0)⟩

/-- A single particle at the origin whose stored velocity points one cell
right; every other cell stores velocity zero. -/
def stRight : PState :=
  ⟨fun x y => x == 0 && y == 0, fun x y => if x == 0 && y == 0 then (1, 0) else (0, 0)⟩

/-- Two particles at `(0,0)` and `(1,0)`, both with stored velocity one cell
right. -/
def stTwo : PState := ⟨fun x y => (x == 0 || x == 1) && y == 0, fun _ _ => (1, 0)⟩

/-- All grid cells in row-major order. -/
def rowMajor : List (Nat × Nat) :=
  (List.range GRID_SIZE).flatMap fun y => (List.range GRID_SIZE).map fun x => (x, y)

/-- A complete schedule that runs the threads at `(0,0)` and `(1,0)` first. -/
def ctOrder : List (Nat × Nat) :=
  (0, 0) :: (1, 0) :: rowMajor.filter fun p => !(p == (0, 0) || p == (1, 0))

/-- Field-texture coordinates read by a `compute_divergence` thread at `(x,y)`:
the cell itself, its right neighbor, and its bottom neighbor. -/
def compute_divergence_field_reads (x y : Nat) : List (Nat × Nat) :=
  [(x, y), (x + 1, y), (x, y + 1)]

/-- Field-texture coordinates read by a `compute_curl` thread at `(x,y)`:
`pos + 1`, `pos + x̂`, and `pos + ŷ`. -/
def compute_curl_field_reads (x y : Nat) : List (Nat × Nat) :=
  [(x + 1, y + 1), (x + 1, y), (x, y + 1)]

/-- Divergence-residual coordinates read by an `apply_deltas` thread at
`(x,y)`: the cell itself unconditionally, plus the left and top neighbors
guarded by `pos.x > 0` and `pos.y > 0`. -/
def apply_deltas_divergence_reads (x y : Nat) : List (Nat × Nat) :=
  [(x, y)] ++ (if 0 < x then [(x - 1, y)] else []) ++ (if 0 < y then [(x, y - 1)] else [])

/-- Curl-residual coordinates read by an `apply_deltas` thread at `(x,y)` at
`level`, with the source's guards (note the guards compare against
`GRID_SIZE << level`, not `GRID_SIZE >> level`). -/
def apply_deltas_curl_reads (level x y : Nat) : List (Nat × Nat) :=
  (if 0 < x ∧ 0 < y then [(x - 1, y - 1)] else []) ++
    (if 0 < x ∧ y + 1 < GRID_SIZE <<< level ∧ x < GRID_SIZE <<< level then [(x - 1, y)]
      else []) ++
    (if 0 < y ∧ x + 1 < GRID_SIZE <<< level ∧ y < GRID_SIZE <<< level then [(x, y - 1)]
      else [])

/-- The level-0 planes touched by interactive injection. -/
structure InjectState where
  charges : ScalarField
  magnets : ScalarField
  particles : Nat → Nat → Bool

/-- `write_charge_kernel`, dispatched over `[1,1,1]` so the only thread offset
is `(0,0)`: a single unconditional overwrite of the charge at `pos`. -/
def write_charge_kernel (charges : ScalarField) (pos : Nat × Nat) (value : ℚ) :
    ScalarField := fun x y => if (x, y) = pos then value else charges x y

/-- `write_magnet_kernel`: as `write_charge_kernel`, on the magnet plane. -/
def write_magnet_kernel (magnets : ScalarField) (pos : Nat × Nat) (value : ℚ) :
    ScalarField := fun x y => if (x, y) = pos then value else magnets x y

/-- `write_particle_kernel`: unconditionally sets occupancy at `pos`. -/
def write_particle_kernel (particles : Nat → Nat → Bool) (pos : Nat × Nat) :
    Nat → Nat → Bool := fun x y => if (x, y) = pos then true else particles x y

/-- The pressed pointer buttons. -/
structure Buttons where
  left : Bool
  right : Bool
  middle : Bool

/-- The grid cell under the cursor: `cursor / SCALING` per axis. -/
def cursor_cell (cx cy : Nat) : Nat × Nat := (cx / SCALING, cy / SCALING)

/-- `update_cursor`: the left button writes `-CHARGE` into the level-0 charge
plane, the right button writes `CHARGE` into the level-0 magnet plane, and the
middle button sets particle occupancy, each at the cursor cell. -/
def update_cursor (b : Buttons) (pos : Nat × Nat) (s : InjectState) : InjectState :=
  let s1 :=
    if b.left then { s with charges := write_charge_kernel s.charges pos (-CHARGE) } else s
  let s2 :=
    if b.right then { s1 with magnets := write_magnet_kernel s1.magnets pos CHARGE } else s1
  if b.middle then { s2 with particles := write_particle_kernel s2.particles pos } else s2

/-- The all-zero injection state. -/
def zeroInject : InjectState := ⟨fun _ _ => 0, fun _ _ => 0, fun _ _ => false⟩

/-- The visualization modes. -/
inductive View
  | Field
  | Divergence
  | Curl
  | TrailOnly

/-- `View::next`: cycle Field → Divergence → Curl → TrailOnly → Field. -/
def View.next : View → View
  | .Field => .Divergence
  | .Divergence => .Curl
  | .Curl => .TrailOnly
  | .TrailOnly => .Field

/-- The physical keys the handler reacts to. -/
inductive Key
  | KeyL
  | KeyK
  | KeyD
  | KeyM
  | other

/-- The element state of a key event. -/
inductive KeyState
  | Pressed
  | Released

/-- The interactive runtime state threaded through the event loop. -/
structure Runtime where
  t : Nat
  viewed_layer : Nat
  view : View
  activate_multigrid : Bool

/-- The default runtime state: tick 0, layer 0, field view, multigrid on. -/
def Runtime.default : Runtime := ⟨0, 0, View.Field, true⟩

/-- `update_keyboard`: on a key press, `L` increments the inspected layer and
resets it to 0 once it reaches `DOWNSCALE_COUNT`; `K` decrements it, wrapping
from 0 to `DOWNSCALE_COUNT - 1`; `D` cycles the view; `M` toggles multigrid;
releases and other keys change nothing. -/
def update_keyboard (state : KeyState) (key : Key) (rt : Runtime) : Runtime :=
  match state with
  | .Released => rt
  | .Pressed =>
    match key with
    | .KeyL =>
      let v := rt.viewed_layer + 1
      if DOWNSCALE_COUNT ≤ v then { rt with viewed_layer := 0 }
      else { rt with viewed_layer := v }
    | .KeyK =>
      if rt.viewed_layer = 0 then { rt with viewed_layer := DOWNSCALE_COUNT - 1 }
      else { rt with viewed_layer := rt.viewed_layer - 1 }
    | .KeyD => { rt with view := rt.view.next }
    | .KeyM => { rt with activate_multigrid := !rt.activate_multigrid }
    | .other => rt

theorem xorShift_testBit (k x i : Nat) :
    (xorShift k x).testBit i = ((x.testBit i).xor (x.testBit (k + i))) := by
  simp [xorShift]

theorem xorShift_lt (k x : Nat) (h : x < 2 ^ 32) : xorShift k x < 2 ^ 32 := by
  apply Nat.xor_lt_two_pow h
  calc x >>> k = x / 2 ^ k := Nat.shiftRight_eq_div_pow x k
    _ ≤ x := Nat.div_le_self x (2 ^ k)
    _ < 2 ^ 32 := h

theorem mulStep_lt (c x : Nat) : mulStep c x < 2 ^ 32 :=
  Nat.mod_lt _ (by norm_num)

theorem xorShift_inj (k : Nat) (hk : 0 < k) (m a b : Nat) (ha : a < 2 ^ m) (hb : b < 2 ^ m)
    (h : xorShift k a = xorShift k b) : a = b := by
  apply Nat.eq_of_testBit_eq
  suffices H : ∀ d i, m ≤ i + d → a.testBit i = b.testBit i by
    intro i
    exact H m i (by omega)
  intro d
  induction d with
  | zero =>
    intro i hi
    have hia : a < 2 ^ i := lt_of_lt_of_le ha (Nat.pow_le_pow_right (by norm_num) (by omega))
    have hib : b < 2 ^ i := lt_of_lt_of_le hb (Nat.pow_le_pow_right (by norm_num) (by omega))
    rw [Nat.testBit_lt_two_pow hia, Nat.testBit_lt_two_pow hib]
  | succ d ih =>
    intro i hi
    by_cases hmi : m ≤ i
    · have hia : a < 2 ^ i := lt_of_lt_of_le ha (Nat.pow_le_pow_right (by norm_num) hmi)
      have hib : b < 2 ^ i := lt_of_lt_of_le hb (Nat.pow_le_pow_right (by norm_num) hmi)
      rw [Nat.testBit_lt_two_pow hia, Nat.testBit_lt_two_pow hib]
    · have h4 : a.testBit (k + i) = b.testBit (k + i) := ih (k + i) (by omega)
      have h3 : (a.testBit i).xor (a.testBit (k + i)) = (b.testBit i).xor (b.testBit (k + i)) := by
        have := congrArg (fun z => Nat.testBit z i) h
        simpa [xorShift_testBit] using this
      rw [h4] at h3
      cases hA : a.testBit i <;> cases hB : b.testBit i <;> simp_all

theorem mulStep_inj (c : Nat) (hc : c % 2 = 1) (a b : Nat) (ha : a < 2 ^ 32) (hb : b < 2 ^ 32)
    (h : mulStep c a = mulStep c b) : a = b := by
  have hco : Nat.gcd (2 ^ 32) c = 1 := by
    have h2 : Nat.Coprime 2 c := Nat.coprime_two_left.mpr (Nat.odd_iff.mpr hc)
    exact h2.pow_left 32
  have hmod : a * c ≡ b * c [MOD 2 ^ 32] := by
    simpa [mulStep, Nat.ModEq] using h
  have hab := Nat.ModEq.cancel_right_of_coprime hco hmod
  rwa [Nat.ModEq, Nat.mod_eq_of_lt ha, Nat.mod_eq_of_lt hb] at hab

theorem hash_lt (x : Nat) : hash x < 2 ^ 32 :=
  xorShift_lt _ _ (mulStep_lt _ _)

theorem hash_inj (x y : Nat) (hx : x < 2 ^ 32) (hy : y < 2 ^ 32) (h : hash x = hash y) :
    x = y := by
  unfold hash at h
  have l1 : ∀ z, z < 2 ^ 32 → xorShift 17 z < 2 ^ 32 := fun z hz => xorShift_lt 17 z hz
  have s1x := xorShift_lt 17 x hx
  have s1y := xorShift_lt 17 y hy
  have s2x := mulStep_lt 0xed5ad4bb (xorShift 17 x)
  have s2y := mulStep_lt 0xed5ad4bb (xorShift 17 y)
  have s3x := xorShift_lt 11 _ s2x
  have s3y := xorShift_lt 11 _ s2y
  have s4x := mulStep_lt 0xac4c1b51 (xorShift 11 (mulStep 0xed5ad4bb (xorShift 17 x)))
  have s4y := mulStep_lt 0xac4c1b51 (xorShift 11 (mulStep 0xed5ad4bb (xorShift 17 y)))
  have s5x := xorShift_lt 15 _ s4x
  have s5y := xorShift_lt 15 _ s4y
  have s6x := mulStep_lt 0x31848bab
    (xorShift 15 (mulStep 0xac4c1b51 (xorShift 11 (mulStep 0xed5ad4bb (xorShift 17 x)))))
  have s6y := mulStep_lt 0x31848bab
    (xorShift 15 (mulStep 0xac4c1b51 (xorShift 11 (mulStep 0xed5ad4bb (xorShift 17 y)))))
  have e6 := xorShift_inj 14 (by norm_num) 32 _ _ s6x s6y h
  have e5 := mulStep_inj 0x31848bab (by norm_num) _ _ s5x s5y e6
  have e4 := xorShift_inj 15 (by norm_num) 32 _ _ s4x s4y e5
  have e3 := mulStep_inj 0xac4c1b51 (by norm_num) _ _ s3x s3y e4
  have e2 := xorShift_inj 11 (by norm_num) 32 _ _ s2x s2y e3
  have e1 := mulStep_inj 0xed5ad4bb (by norm_num) _ _ s1x s1y e2
  exact xorShift_inj 17 (by norm_num) 32 _ _ hx hy e1

theorem hash_surj_aux (z : Nat) (hz : z < 2 ^ 32) : ∃ x, x < 2 ^ 32 ∧ hash x = z := by
  classical
  have himg : (Finset.range (2 ^ 32)).image hash = Finset.range (2 ^ 32) := by
    apply Finset.eq_of_subset_of_card_le
    · intro w hw
      rw [Finset.mem_image] at hw
      obtain ⟨x, _, rfl⟩ := hw
      exact Finset.mem_range.mpr (hash_lt x)
    · rw [Finset.card_image_of_injOn]
      intro a ha b hb hab
      exact hash_inj a b (Finset.mem_range.mp ha) (Finset.mem_range.mp hb) hab
  have hmem : z ∈ (Finset.range (2 ^ 32)).image hash := by
    rw [himg]
    exact Finset.mem_range.mpr hz
  rw [Finset.mem_image] at hmem
  obtain ⟨x, hx, hhx⟩ := hmem
  exact ⟨x, Finset.mem_range.mp hx, hhx⟩

/-- C9: `hash : u32 → u32` is a bijection; in particular distinct inputs have
distinct hashes, and every 32-bit value is attained. -/
theorem hash_bijective (x y z : Nat) (hx : x < 2 ^ 32) (hy : y < 2 ^ 32) (hz : z < 2 ^ 32)
    (hxy : x ≠ y) : hash x ≠ hash y ∧ ∃ w, w < 2 ^ 32 ∧ hash w = z :=
  ⟨fun h => hxy (hash_inj x y hx hy h), hash_surj_aux z hz⟩

/-- Concrete instance of C9: inputs 0 and 1 hash differently, and 0 is attained. -/
theorem hash_bijective_witness :
    hash 0 ≠ hash 1 ∧ ∃ w, w < 2 ^ 32 ∧ hash w = 0 :=
  hash_bijective 0 1 0 (by norm_num) (by norm_num) (by norm_num) (by norm_num)

/-- C1 counterexample: at level 0, cell `(0,0)`, zero charge and a field of
divergence 1, the stored residual is `1.9`, not `divergence - charge = 1`. -/
theorem compute_divergence_not_plain_residual :
    compute_divergence (GRID_SIZE >>> 0) 0 zeroScalar exFieldX zeroScalar 0 0 ≠
      divergenceAt exFieldX 0 0 - zeroScalar 0 0 := by
  norm_num [compute_divergence, divergenceAt, zeroScalar, exFieldX, GRID_SIZE]

/-- C1 (amended): after the divergence-residual pass at level `L` with parity
`offset`, the stored residual at an in-range cell is `(divergence − charge) * 1.9`
when `(x+y) % 2 = offset`, and `0` at all other in-range cells. -/
theorem compute_divergence_stored_residual (level offset : Nat) (charges : ScalarField)
    (field : VecField) (derr : ScalarField) (x y : Nat)
    (hx : x < GRID_SIZE >>> level) (hy : y < GRID_SIZE >>> level) :
    compute_divergence (GRID_SIZE >>> level) offset charges field derr x y =
      if (x + y) % 2 = offset then (divergenceAt field x y - charges x y) * (19 / 10)
      else 0 := by
  simp only [compute_divergence]
  rw [if_pos ⟨hx, hy⟩]
  split_ifs
  · simp only [divergenceAt]
    ring
  · rfl

/-- Concrete instance of the amended C1 at level 0, offset 0, cell `(0,0)`. -/
theorem compute_divergence_stored_residual_witness :
    (0 : Nat) < GRID_SIZE >>> 0 ∧
      compute_divergence (GRID_SIZE >>> 0) 0 zeroScalar exFieldX zeroScalar 0 0 =
        if (0 + 0) % 2 = 0 then (divergenceAt exFieldX 0 0 - zeroScalar 0 0) * (19 / 10)
        else 0 :=
  ⟨by decide,
    compute_divergence_stored_residual 0 0 zeroScalar exFieldX zeroScalar 0 0
      (by decide) (by decide)⟩

/-- C6 counterexample: at the even coordinate `(0,0)` the upsample writes half
the coarse value (`1`), not the coarse value itself (`2`). -/
theorem upscale_even_not_unchanged :
    (upscale_field_kernel (GRID_SIZE >>> 1) coarseTwo zeroVecField 0 0).1 ≠
      (coarseTwo 0 0).1 := by
  norm_num [upscale_field_kernel, coarseTwo, zeroVecField, GRID_SIZE,
    Nat.shiftRight_succ, Nat.shiftRight_zero]

/-- C6 (amended): at every in-range cell the upsample writes half of the
axis-independently interpolated coarse value: even coordinates get the coarse
value divided by 2, odd coordinates get the average of the two adjacent coarse
values divided by 2. -/
theorem upscale_field_halved (size : Nat) (coarse fine : VecField) (x y : Nat)
    (hx : x < size) (hy : y < size) :
    upscale_field_kernel size coarse fine x y =
      ((if x % 2 = 1 then ((coarse (x / 2) (y / 2)).1 + (coarse (x / 2 + 1) (y / 2)).1) / 2
        else (coarse (x / 2) (y / 2)).1) / 2,
       (if y % 2 = 1 then ((coarse (x / 2) (y / 2)).2 + (coarse (x / 2) (y / 2 + 1)).2) / 2
        else (coarse (x / 2) (y / 2)).2) / 2) := by
  simp only [upscale_field_kernel]
  rw [if_pos ⟨hx, hy⟩]
  split_ifs <;> simp [Prod.ext_iff]

/-- Concrete instance of the amended C6 at cell `(0,0)` of level 0. -/
theorem upscale_field_halved_witness :
    (0 : Nat) < GRID_SIZE >>> 1 ∧
      upscale_field_kernel (GRID_SIZE >>> 1) coarseTwo zeroVecField 0 0 =
        ((if (0 : Nat) % 2 = 1 then ((coarseTwo 0 0).1 + (coarseTwo 1 0).1) / 2
          else (coarseTwo 0 0).1) / 2,
         (if (0 : Nat) % 2 = 1 then ((coarseTwo 0 0).2 + (coarseTwo 0 1).2) / 2
          else (coarseTwo 0 0).2) / 2) :=
  ⟨by decide, upscale_field_halved (GRID_SIZE >>> 1) coarseTwo zeroVecField 0 0
    (by decide) (by decide)⟩

theorem downsampleTo_charges_stable (s : Sources) (k L : Nat) (hL : L ≤ k) :
    (downsampleTo s k).charges L = (downsampleTo s L).charges L := by
  induction k with
  | zero =>
    have h0 : L = 0 := Nat.le_zero.mp hL
    subst h0
    rfl
  | succ k ih =>
    rcases Nat.lt_or_ge L (k + 1) with h | h
    · have hr : L ≠ k + 1 := by omega
      funext x y
      simp only [downsampleTo, downscale_charges_kernel]
      rw [if_neg (fun hc => hr hc.1)]
      exact congrFun (congrFun (ih (by omega)) x) y
    · have hLk : L = k + 1 := by omega
      subst hLk
      rfl

theorem downsampleTo_magnets_stable (s : Sources) (k L : Nat) (hL : L ≤ k) :
    (downsampleTo s k).magnets L = (downsampleTo s L).magnets L := by
  induction k with
  | zero =>
    have h0 : L = 0 := Nat.le_zero.mp hL
    subst h0
    rfl
  | succ k ih =>
    rcases Nat.lt_or_ge L (k + 1) with h | h
    · have hr : L ≠ k + 1 := by omega
      funext x y
      simp only [downsampleTo, downscale_charges_kernel]
      rw [if_neg (fun hc => hr hc.1)]
      exact congrFun (congrFun (ih (by omega)) x) y
    · have hLk : L = k + 1 := by omega
      subst hLk
      rfl

/-- C3: after the per-tick downsample pass, every in-range cell of every level
`L` in `1..DOWNSCALE_COUNT` holds the exact sum of its four children at level
`L - 1`, for both charges and magnets. -/
theorem downsample_pass_childSum (s : Sources) (L x y : Nat) (h1 : 1 ≤ L)
    (h2 : L < DOWNSCALE_COUNT) (hx : x < GRID_SIZE >>> L) (hy : y < GRID_SIZE >>> L) :
    (downsample_pass s).charges L x y = childSum ((downsample_pass s).charges (L - 1)) x y ∧
      (downsample_pass s).magnets L x y = childSum ((downsample_pass s).magnets (L - 1)) x y := by
  obtain ⟨k, rfl⟩ : ∃ k, L = k + 1 := ⟨L - 1, by omega⟩
  have hk6 : k + 1 ≤ DOWNSCALE_COUNT - 1 := by
    simp only [DOWNSCALE_COUNT] at h2 ⊢
    omega
  constructor
  · have hstep : (downsample_pass s).charges (k + 1) = (downsampleTo s (k + 1)).charges (k + 1) :=
      downsampleTo_charges_stable s (DOWNSCALE_COUNT - 1) (k + 1) hk6
    have hprev : (downsample_pass s).charges k = (downsampleTo s k).charges k :=
      downsampleTo_charges_stable s (DOWNSCALE_COUNT - 1) k (by omega)
    rw [hstep]
    simp only [downsampleTo, downscale_charges_kernel, Nat.add_sub_cancel]
    rw [if_pos ⟨trivial, hx, hy⟩, hprev]
  · have hstep : (downsample_pass s).magnets (k + 1) = (downsampleTo s (k + 1)).magnets (k + 1) :=
      downsampleTo_magnets_stable s (DOWNSCALE_COUNT - 1) (k + 1) hk6
    have hprev : (downsample_pass s).magnets k = (downsampleTo s k).magnets k :=
      downsampleTo_magnets_stable s (DOWNSCALE_COUNT - 1) k (by omega)
    rw [hstep]
    simp only [downsampleTo, downscale_charges_kernel, Nat.add_sub_cancel]
    rw [if_pos ⟨trivial, hx, hy⟩, hprev]

/-- Concrete instance of C3 at level 1, cell `(0,0)`. -/
theorem downsample_pass_childSum_witness :
    (1 : Nat) < DOWNSCALE_COUNT ∧
      ((downsample_pass onesSources).charges 1 0 0 =
          childSum ((downsample_pass onesSources).charges 0) 0 0 ∧
        (downsample_pass onesSources).magnets 1 0 0 =
          childSum ((downsample_pass onesSources).magnets 0) 0 0) :=
  ⟨by decide, downsample_pass_childSum onesSources 1 0 0 (by decide) (by decide)
    (by decide) (by decide)⟩

theorem rand_f32_nonneg (x y t c : Nat) : 0 ≤ rand_f32 x y t c := by
  unfold rand_f32
  positivity

theorem mem_threadWrites (st : PState) (field : VecField) (dt : ℚ) (t x y : Nat)
    (w : (Nat × Nat) × Bool) :
    w ∈ threadWrites st field dt t x y ↔
      isMover st field dt t x y ∧
        (w = (tgtPos st field dt t x y, true) ∨ w = ((x, y), false)) := by
  unfold threadWrites
  split_ifs with h1 h2 h3
  · simp [isMover, targetInGrid, h2]
  · simp [isMover, targetInGrid, h1, h2, h3]
  · simp only [List.not_mem_nil, false_iff] at *
    intro hc
    exact h3 hc.1.2.2
  · simp [isMover, h1]

theorem mem_scheduleWrites (st : PState) (field : VecField) (dt : ℚ) (t : Nat)
    (order : List (Nat × Nat)) (w : (Nat × Nat) × Bool) :
    w ∈ scheduleWrites st field dt t order ↔
      ∃ p ∈ order, w ∈ threadWrites st field dt t p.1 p.2 := by
  induction order with
  | nil => simp [scheduleWrites]
  | cons p ps ih =>
    simp only [scheduleWrites, List.mem_append, ih, List.mem_cons]
    constructor
    · rintro (h | ⟨q, hq, hw⟩)
      · exact ⟨p, Or.inl rfl, h⟩
      · exact ⟨q, Or.inr hq, hw⟩
    · rintro ⟨q, hq | hq, hw⟩
      · subst hq
        exact Or.inl hw
      · exact Or.inr ⟨q, hq, hw⟩

theorem applyWrites_of_no_write (occ : Nat → Nat → Bool) (ws : List ((Nat × Nat) × Bool))
    (x y : Nat) (h : ∀ w ∈ ws, w.1 ≠ (x, y)) :
    applyWrites occ ws x y = occ x y := by
  induction ws generalizing occ with
  | nil => rfl
  | cons w ws ih =>
    simp only [applyWrites]
    rw [ih _ (fun w' hw' => h w' (List.mem_cons_of_mem _ hw'))]
    rw [if_neg (Ne.symm (h w (List.mem_cons_self _ _)))]

theorem applyWrites_of_const_write (occ : Nat → Nat → Bool)
    (ws : List ((Nat × Nat) × Bool)) (x y : Nat) (b : Bool)
    (hall : ∀ w ∈ ws, w.1 = (x, y) → w.2 = b)
    (hex : ∃ w ∈ ws, w.1 = (x, y)) :
    applyWrites occ ws x y = b := by
  induction ws generalizing occ with
  | nil =>
    obtain ⟨w, hw, _⟩ := hex
    cases hw
  | cons w ws ih =>
    simp only [applyWrites]
    by_cases htail : ∃ w' ∈ ws, w'.1 = (x, y)
    · exact ih _ (fun w' hw' => hall w' (List.mem_cons_of_mem _ hw')) htail
    · obtain ⟨w0, hw0, hw0eq⟩ := hex
      have hw0head : w0 = w := by
        rcases List.mem_cons.mp hw0 with h | h
        · exact h
        · exact absurd ⟨w0, h, hw0eq⟩ htail
      subst hw0head
      rw [applyWrites_of_no_write _ _ x y (fun w' hw' hc => htail ⟨w', hw', hc⟩)]
      rw [if_pos hw0eq.symm]
      exact hall w0 (List.mem_cons_self _ _) hw0eq

theorem tgtPos_lt (st : PState) (field : VecField) (dt : ℚ) (t x y : Nat)
    (h : targetInGrid st field dt t x y) :
    (tgtPos st field dt t x y).1 < GRID_SIZE ∧ (tgtPos st field dt t x y).2 < GRID_SIZE := by
  unfold tgtPos
  push_neg at h
  obtain ⟨h1, h2, h3, h4⟩ := h
  constructor <;> simp <;> omega

theorem final_occ_at_target (st : PState) (field : VecField) (dt : ℚ) (t : Nat)
    (order : List (Nat × Nat))
    (hcomplete : ∀ x y : Nat, x < GRID_SIZE → y < GRID_SIZE → (x, y) ∈ order)
    (hrange : ∀ p ∈ order, p.1 < GRID_SIZE ∧ p.2 < GRID_SIZE)
    (hfree : ∀ a b : Nat, a < GRID_SIZE → b < GRID_SIZE → isMover st field dt t a b →
      st.particles (tgtPos st field dt t a b).1 (tgtPos st field dt t a b).2 = false)
    (x y : Nat) (hx : x < GRID_SIZE) (hy : y < GRID_SIZE)
    (hm : isMover st field dt t x y) :
    (update_kernel_run st field dt t order).particles (tgtPos st field dt t x y).1
      (tgtPos st field dt t x y).2 = true := by
  show applyWrites st.particles (scheduleWrites st field dt t order) _ _ = true
  apply applyWrites_of_const_write
  · intro w hw hweq
    rw [mem_scheduleWrites] at hw
    obtain ⟨p, hp, hw⟩ := hw
    rw [mem_threadWrites] at hw
    obtain ⟨hpm, hcase | hcase⟩ := hw
    · subst hcase
      rfl
    · exfalso
      subst hcase
      simp only at hweq
      have hfalse := hfree x y hx hy hm
      have hpocc := hpm.1
      have e1 : p.1 = (tgtPos st field dt t x y).1 := congrArg Prod.fst hweq
      have e2 : p.2 = (tgtPos st field dt t x y).2 := congrArg Prod.snd hweq
      rw [e1, e2, hfalse] at hpocc
      cases hpocc
  · refine ⟨(tgtPos st field dt t x y, true), ?_, rfl⟩
    rw [mem_scheduleWrites]
    exact ⟨(x, y), hcomplete x y hx hy,
      (mem_threadWrites st field dt t x y _).mpr ⟨hm, Or.inl rfl⟩⟩

theorem final_occ_at_mover_source (st : PState) (field : VecField) (dt : ℚ) (t : Nat)
    (order : List (Nat × Nat))
    (hcomplete : ∀ x y : Nat, x < GRID_SIZE → y < GRID_SIZE → (x, y) ∈ order)
    (hrange : ∀ p ∈ order, p.1 < GRID_SIZE ∧ p.2 < GRID_SIZE)
    (hfree : ∀ a b : Nat, a < GRID_SIZE → b < GRID_SIZE → isMover st field dt t a b →
      st.particles (tgtPos st field dt t a b).1 (tgtPos st field dt t a b).2 = false)
    (x y : Nat) (hx : x < GRID_SIZE) (hy : y < GRID_SIZE)
    (hm : isMover st field dt t x y) :
    (update_kernel_run st field dt t order).particles x y = false := by
  show applyWrites st.particles (scheduleWrites st field dt t order) x y = false
  apply applyWrites_of_const_write
  · intro w hw hweq
    rw [mem_scheduleWrites] at hw
    obtain ⟨p, hp, hw⟩ := hw
    rw [mem_threadWrites] at hw
    obtain ⟨hpm, hcase | hcase⟩ := hw
    · exfalso
      subst hcase
      simp only at hweq
      have hpr := hrange p hp
      have hfalse := hfree p.1 p.2 hpr.1 hpr.2 hpm
      rw [hweq] at hfalse
      rw [hm.1] at hfalse
      cases hfalse
    · subst hcase
      rfl
  · refine ⟨((x, y), false), ?_, rfl⟩
    rw [mem_scheduleWrites]
    exact ⟨(x, y), hcomplete x y hx hy,
      (mem_threadWrites st field dt t x y _).mpr ⟨hm, Or.inr rfl⟩⟩

theorem final_occ_unchanged (st : PState) (field : VecField) (dt : ℚ) (t : Nat)
    (order : List (Nat × Nat))
    (hrange : ∀ p ∈ order, p.1 < GRID_SIZE ∧ p.2 < GRID_SIZE)
    (x y : Nat)
    (hnotm : ¬ isMover st field dt t x y)
    (hnott : ∀ a b : Nat, a < GRID_SIZE → b < GRID_SIZE → isMover st field dt t a b →
      tgtPos st field dt t a b ≠ (x, y)) :
    (update_kernel_run st field dt t order).particles x y = st.particles x y := by
  show applyWrites st.particles (scheduleWrites st field dt t order) x y = _
  apply applyWrites_of_no_write
  intro w hw
  rw [mem_scheduleWrites] at hw
  obtain ⟨p, hp, hw⟩ := hw
  rw [mem_threadWrites] at hw
  obtain ⟨hpm, hcase | hcase⟩ := hw
  · subst hcase
    have hpr := hrange p hp
    exact hnott p.1 p.2 hpr.1 hpr.2 hpm
  · subst hcase
    simp only
    intro hc
    apply hnotm
    have : p = (x, y) := hc
    rw [this] at hpm
    exact hpm

/-- C8: for an occupied cell whose computed destination falls outside the grid,
the entire particle update is dropped for the tick: the thread performs no
writes at all, the source cell remains occupied after the dispatch under every
schedule, and the stored velocity buffer is untouched. -/
theorem update_kernel_out_of_range_drops (st : PState) (field : VecField) (dt : ℚ)
    (t : Nat) (order : List (Nat × Nat)) (x y : Nat)
    (hocc : st.particles x y = true)
    (hout : ¬ targetInGrid st field dt t x y) :
    threadWrites st field dt t x y = [] ∧
      (update_kernel_run st field dt t order).particles x y = true ∧
      (update_kernel_run st field dt t order).particle_velocity = st.particle_velocity := by
  have hempty : threadWrites st field dt t x y = [] := by
    unfold threadWrites
    rw [if_pos hocc, if_pos (not_not.mp hout)]
  refine ⟨hempty, ?_, rfl⟩
  show applyWrites st.particles (scheduleWrites st field dt t order) x y = true
  by_cases hex : ∃ w ∈ scheduleWrites st field dt t order, w.1 = (x, y)
  · apply applyWrites_of_const_write _ _ _ _ true _ hex
    intro w hw hweq
    rw [mem_scheduleWrites] at hw
    obtain ⟨p, hp, hw⟩ := hw
    rw [mem_threadWrites] at hw
    obtain ⟨hpm, hcase | hcase⟩ := hw
    · subst hcase
      rfl
    · exfalso
      subst hcase
      apply hout
      have : p = (x, y) := hweq
      rw [this] at hpm
      exact hpm.2.1
  · push_neg at hex
    rw [applyWrites_of_no_write _ _ _ _ hex]
    exact hocc

theorem mem_gridFinset (p : Nat × Nat) :
    p ∈ gridFinset ↔ p.1 < GRID_SIZE ∧ p.2 < GRID_SIZE := by
  simp [gridFinset, Finset.mem_product]

set_option maxRecDepth 4000 in
/-- C5 (amended): if no two movers' computed destinations collide and no
destination lands on a cell that was occupied at the start of the tick, then
under every complete schedule of the dispatch the occupied-cell count is
conserved; every mover's destination is occupied and its source cleared, and
every occupied non-mover keeps its position. -/
theorem update_kernel_conserves_particles (st : PState) (field : VecField) (dt : ℚ)
    (t : Nat) (order : List (Nat × Nat))
    (hcomplete : ∀ x y : Nat, x < GRID_SIZE → y < GRID_SIZE → (x, y) ∈ order)
    (hrange : ∀ p ∈ order, p.1 < GRID_SIZE ∧ p.2 < GRID_SIZE)
    (hinj : ∀ p q : Nat × Nat, p.1 < GRID_SIZE → p.2 < GRID_SIZE → q.1 < GRID_SIZE →
      q.2 < GRID_SIZE → isMover st field dt t p.1 p.2 → isMover st field dt t q.1 q.2 →
      tgtPos st field dt t p.1 p.2 = tgtPos st field dt t q.1 q.2 → p = q)
    (hfree : ∀ a b : Nat, a < GRID_SIZE → b < GRID_SIZE → isMover st field dt t a b →
      st.particles (tgtPos st field dt t a b).1 (tgtPos st field dt t a b).2 = false) :
    occCount (update_kernel_run st field dt t order).particles = occCount st.particles ∧
      ∀ x y : Nat, x < GRID_SIZE → y < GRID_SIZE → st.particles x y = true →
        (isMover st field dt t x y →
          (update_kernel_run st field dt t order).particles
              (tgtPos st field dt t x y).1 (tgtPos st field dt t x y).2 = true ∧
            (update_kernel_run st field dt t order).particles x y = false) ∧
          (¬ isMover st field dt t x y →
            (update_kernel_run st field dt t order).particles x y = true) := by
  have hnott_of_occ : ∀ x y : Nat, st.particles x y = true →
      ∀ a b : Nat, a < GRID_SIZE → b < GRID_SIZE → isMover st field dt t a b →
        tgtPos st field dt t a b ≠ (x, y) := by
    intro x y hocc a b ha hb hm hc
    have := hfree a b ha hb hm
    rw [hc] at this
    simp only at this
    rw [hocc] at this
    cases this
  constructor
  · unfold occCount
    symm
    apply Finset.card_bij
      (fun p _ => if isMover st field dt t p.1 p.2 then tgtPos st field dt t p.1 p.2 else p)
    · intro a ha
      rw [Finset.mem_filter, mem_gridFinset] at ha
      obtain ⟨⟨ha1, ha2⟩, haocc⟩ := ha
      split_ifs with hm
      · rw [Finset.mem_filter, mem_gridFinset]
        have hT := tgtPos_lt st field dt t a.1 a.2 hm.2.1
        exact ⟨hT, final_occ_at_target st field dt t order hcomplete hrange hfree
          a.1 a.2 ha1 ha2 hm⟩
      · rw [Finset.mem_filter, mem_gridFinset]
        refine ⟨⟨ha1, ha2⟩, ?_⟩
        rw [final_occ_unchanged st field dt t order hrange a.1 a.2 hm
          (hnott_of_occ a.1 a.2 haocc)]
        exact haocc
    · intro a ha b hb heq
      rw [Finset.mem_filter, mem_gridFinset] at ha hb
      obtain ⟨⟨ha1, ha2⟩, haocc⟩ := ha
      obtain ⟨⟨hb1, hb2⟩, hbocc⟩ := hb
      split_ifs at heq with hma hmb hmb
      · exact hinj a b ha1 ha2 hb1 hb2 hma hmb heq
      · exfalso
        have hcontra := hfree a.1 a.2 ha1 ha2 hma
        rw [heq] at hcontra
        rw [hbocc] at hcontra
        cases hcontra
      · exfalso
        have hcontra := hfree b.1 b.2 hb1 hb2 hmb
        rw [← heq] at hcontra
        rw [haocc] at hcontra
        cases hcontra
      · exact heq
    · intro b hb
      rw [Finset.mem_filter, mem_gridFinset] at hb
      obtain ⟨⟨hb1, hb2⟩, hbocc⟩ := hb
      by_cases hex : ∃ p : Nat × Nat, p.1 < GRID_SIZE ∧ p.2 < GRID_SIZE ∧
          isMover st field dt t p.1 p.2 ∧ tgtPos st field dt t p.1 p.2 = b
      · obtain ⟨p, hp1, hp2, hpm, hpt⟩ := hex
        refine ⟨p, ?_, ?_⟩
        · rw [Finset.mem_filter, mem_gridFinset]
          exact ⟨⟨hp1, hp2⟩, hpm.1⟩
        · rw [if_pos hpm]
          exact hpt
      · have hnott : ∀ a c : Nat, a < GRID_SIZE → c < GRID_SIZE →
            isMover st field dt t a c → tgtPos st field dt t a c ≠ (b.1, b.2) := by
          intro a c ha hc hm hcontra
          exact hex ⟨(a, c), ha, hc, hm, by rw [hcontra]⟩
        have hbnotm : ¬ isMover st field dt t b.1 b.2 := by
          intro hm
          have := final_occ_at_mover_source st field dt t order hcomplete hrange hfree
            b.1 b.2 hb1 hb2 hm
          rw [hbocc] at this
          cases this
        have hunch := final_occ_unchanged st field dt t order hrange b.1 b.2 hbnotm
          (by
            intro a c ha hc hm
            exact hnott a c ha hc hm)
        refine ⟨b, ?_, ?_⟩
        · rw [Finset.mem_filter, mem_gridFinset]
          refine ⟨⟨hb1, hb2⟩, ?_⟩
          rw [← hunch]
          exact hbocc
        · rw [if_neg hbnotm]
  · intro x y hx hy hocc
    constructor
    · intro hm
      exact ⟨final_occ_at_target st field dt t order hcomplete hrange hfree x y hx hy hm,
        final_occ_at_mover_source st field dt t order hcomplete hrange hfree x y hx hy hm⟩
    · intro hm
      rw [final_occ_unchanged st field dt t order hrange x y hm (hnott_of_occ x y hocc)]
      exact hocc

theorem stepOf_one (r : ℚ) (hr : 0 ≤ r) : stepOf 1 r = 1 := by
  have hnr : ¬ r < 0 := not_lt.mpr hr
  norm_num [stepOf, Int.floor_one, hnr]

theorem stepOf_zero (r : ℚ) (hr : 0 ≤ r) : stepOf 0 r = 0 := by
  have hnr : ¬ r < 0 := not_lt.mpr hr
  norm_num [stepOf, Int.floor_zero, hnr]

theorem stepOf_neg_one (r : ℚ) (hr : 0 ≤ r) : stepOf (-1) r = -1 := by
  have hnr : ¬ r < 0 := not_lt.mpr hr
  norm_num [stepOf, Int.floor_one, hnr]

theorem mem_rowMajor (p : Nat × Nat) :
    p ∈ rowMajor ↔ p.1 < GRID_SIZE ∧ p.2 < GRID_SIZE := by
  rcases p with ⟨x, y⟩
  simp only [rowMajor, List.mem_flatMap, List.mem_map, List.mem_range]
  constructor
  · rintro ⟨b, hb, a, ha, heq⟩
    obtain ⟨h1, h2⟩ := Prod.mk.injEq .. ▸ heq
    exact ⟨by omega, by omega⟩
  · rintro ⟨hx, hy⟩
    exact ⟨y, hy, x, hx, rfl⟩

theorem ctOrder_complete (x y : Nat) (hx : x < GRID_SIZE) (hy : y < GRID_SIZE) :
    (x, y) ∈ ctOrder := by
  by_cases h0 : (x, y) = ((0 : Nat), (0 : Nat))
  · rw [h0]
    exact List.mem_cons_self _ _
  · by_cases h1 : (x, y) = ((1 : Nat), (0 : Nat))
    · rw [h1]
      exact List.mem_cons_of_mem _ (List.mem_cons_self _ _)
    · apply List.mem_cons_of_mem
      apply List.mem_cons_of_mem
      rw [List.mem_filter]
      refine ⟨(mem_rowMajor (x, y)).mpr ⟨hx, hy⟩, ?_⟩
      simp only [Bool.not_eq_true']
      simp [Prod.ext_iff] at h0 h1 ⊢
      omega

theorem ctOrder_range (p : Nat × Nat) (hp : p ∈ ctOrder) :
    p.1 < GRID_SIZE ∧ p.2 < GRID_SIZE := by
  rcases List.mem_cons.mp hp with h | hp
  · subst h
    exact ⟨by norm_num [GRID_SIZE], by norm_num [GRID_SIZE]⟩
  rcases List.mem_cons.mp hp with h | hp
  · subst h
    exact ⟨by norm_num [GRID_SIZE], by norm_num [GRID_SIZE]⟩
  · exact (mem_rowMajor p).mp (List.mem_filter.mp hp).1

theorem threadWrites_of_unoccupied (st : PState) (field : VecField) (dt : ℚ) (t x y : Nat)
    (h : st.particles x y = false) : threadWrites st field dt t x y = [] := by
  unfold threadWrites
  rw [if_neg (by rw [h]; exact Bool.false_ne_true)]

theorem scheduleWrites_all_empty (st : PState) (field : VecField) (dt : ℚ) (t : Nat)
    (l : List (Nat × Nat)) (h : ∀ p ∈ l, threadWrites st field dt t p.1 p.2 = []) :
    scheduleWrites st field dt t l = [] := by
  induction l with
  | nil => rfl
  | cons p ps ih =>
    simp only [scheduleWrites]
    rw [h p (List.mem_cons_self _ _), ih (fun q hq => h q (List.mem_cons_of_mem _ hq))]
    rfl

theorem stTwo_target (x y : Nat) :
    targetOf stTwo zeroVecField 1 0 x y = ((x : Int) + 1, (y : Int)) := by
  unfold targetOf velOf stTwo zeroVecField GAIN
  norm_num [stepOf_one _ (rand_f32_nonneg x y 0 0), stepOf_zero _ (rand_f32_nonneg x y 0 1)]

theorem stTwo_tgtPos (x y : Nat) : tgtPos stTwo zeroVecField 1 0 x y = (x + 1, y) := by
  unfold tgtPos
  rw [stTwo_target]
  rw [Prod.ext_iff]
  refine ⟨?_, ?_⟩
  · show ((x : Int) + 1).toNat = x + 1
    omega
  · show ((y : Int)).toNat = y
    omega

theorem stTwo_writes_00 :
    threadWrites stTwo zeroVecField 1 0 0 0 = [((1, 0), true), ((0, 0), false)] := by
  unfold threadWrites
  rw [if_pos (by rfl : stTwo.particles 0 0 = true)]
  rw [stTwo_target, stTwo_tgtPos]
  rw [if_neg (by norm_num [GRID_SIZE])]
  rw [if_pos (by simp [Prod.ext_iff])]

theorem stTwo_writes_10 :
    threadWrites stTwo zeroVecField 1 0 1 0 = [((2, 0), true), ((1, 0), false)] := by
  unfold threadWrites
  rw [if_pos (by rfl : stTwo.particles 1 0 = true)]
  rw [stTwo_target, stTwo_tgtPos]
  rw [if_neg (by norm_num [GRID_SIZE])]
  rw [if_pos (by simp [Prod.ext_iff])]

theorem scheduleWrites_cons (st : PState) (field : VecField) (dt : ℚ) (t a b : Nat)
    (ps : List (Nat × Nat)) :
    scheduleWrites st field dt t ((a, b) :: ps) =
      threadWrites st field dt t a b ++ scheduleWrites st field dt t ps := rfl

theorem stTwo_schedule_writes :
    scheduleWrites stTwo zeroVecField 1 0 ctOrder =
      [((1, 0), true), ((0, 0), false), ((2, 0), true), ((1, 0), false)] := by
  show scheduleWrites stTwo zeroVecField 1 0
      ((0, 0) :: (1, 0) :: rowMajor.filter fun p => !(p == (0, 0) || p == (1, 0))) = _
  rw [scheduleWrites_cons, scheduleWrites_cons]
  rw [stTwo_writes_00, stTwo_writes_10]
  rw [scheduleWrites_all_empty]
  · rfl
  · intro p hp
    apply threadWrites_of_unoccupied
    rw [List.mem_filter] at hp
    rcases p with ⟨a, b⟩
    have hcond := hp.2
    simp at hcond
    show ((a == 0 || a == 1) && b == 0) = false
    simp
    omega

theorem stTwo_final_occ (x y : Nat) :
    (update_kernel_run stTwo zeroVecField 1 0 ctOrder).particles x y =
      ((x == 2) && (y == 0)) := by
  show applyWrites stTwo.particles (scheduleWrites stTwo zeroVecField 1 0 ctOrder) x y = _
  rw [stTwo_schedule_writes]
  show (if (x, y) = ((1 : Nat), (0 : Nat)) then false
      else if (x, y) = ((2 : Nat), (0 : Nat)) then true
      else if (x, y) = ((0 : Nat), (0 : Nat)) then false
      else if (x, y) = ((1 : Nat), (0 : Nat)) then true
      else stTwo.particles x y) = ((x == 2) && (y == 0))
  split_ifs with h1 h2 h3
  · simp only [Prod.mk.injEq] at h1
    obtain ⟨hx, hy⟩ := h1
    subst hx
    subst hy
    rfl
  · simp only [Prod.mk.injEq] at h2
    obtain ⟨hx, hy⟩ := h2
    subst hx
    subst hy
    rfl
  · simp only [Prod.mk.injEq] at h3
    obtain ⟨hx, hy⟩ := h3
    subst hx
    subst hy
    rfl
  · simp only [Prod.mk.injEq] at h1 h2 h3
    by_cases hy : y = 0
    · subst hy
      have hx1 : x ≠ 1 := fun hc => h1 ⟨hc, rfl⟩
      have hx2 : x ≠ 2 := fun hc => h2 ⟨hc, rfl⟩
      have hx0 : x ≠ 0 := fun hc => h3 ⟨hc, rfl⟩
      rw [show stTwo.particles x 0 = ((x == 0 || x == 1) && (0 == 0)) from rfl]
      rw [beq_eq_false_iff_ne.mpr hx0, beq_eq_false_iff_ne.mpr hx1,
        beq_eq_false_iff_ne.mpr hx2]
      rfl
    · rw [show stTwo.particles x y = ((x == 0 || x == 1) && (y == 0)) from rfl]
      rw [beq_eq_false_iff_ne.mpr hy]
      rw [Bool.and_false, Bool.and_false]

theorem stTwo_count_final :
    occCount (update_kernel_run stTwo zeroVecField 1 0 ctOrder).particles = 1 := by
  unfold occCount
  have hset : (gridFinset.filter fun p =>
      (update_kernel_run stTwo zeroVecField 1 0 ctOrder).particles p.1 p.2 = true) =
        {((2 : Nat), (0 : Nat))} := by
    apply Finset.ext
    intro p
    rw [Finset.mem_filter, mem_gridFinset, stTwo_final_occ p.1 p.2]
    simp only [Finset.mem_singleton, Bool.and_eq_true, beq_iff_eq, Prod.ext_iff]
    constructor
    · rintro ⟨_, h2, h0⟩
      exact ⟨h2, h0⟩
    · rintro ⟨h2, h0⟩
      refine ⟨⟨?_, ?_⟩, h2, h0⟩ <;> simp [GRID_SIZE, h2, h0]
  rw [hset, Finset.card_singleton]

theorem stTwo_count_init : occCount stTwo.particles = 2 := by
  unfold occCount
  have hset : (gridFinset.filter fun p => stTwo.particles p.1 p.2 = true) =
      {((0 : Nat), (0 : Nat)), ((1 : Nat), (0 : Nat))} := by
    apply Finset.ext
    intro p
    rw [Finset.mem_filter, mem_gridFinset]
    show (p.1 < GRID_SIZE ∧ p.2 < GRID_SIZE) ∧ ((p.1 == 0 || p.1 == 1) && p.2 == 0) = true ↔ _
    simp only [Finset.mem_insert, Finset.mem_singleton, Bool.and_eq_true, Bool.or_eq_true,
      beq_iff_eq, Prod.ext_iff]
    constructor
    · rintro ⟨_, h01, h0⟩
      rcases h01 with h | h
      · exact Or.inl ⟨h, h0⟩
      · exact Or.inr ⟨h, h0⟩
    · rintro (⟨h1, h0⟩ | ⟨h1, h0⟩) <;>
        refine ⟨⟨?_, ?_⟩, ?_, h0⟩ <;> simp [GRID_SIZE, h1, h0]
  rw [hset]
  rfl

/-- C5 counterexample: with two particles at `(0,0)` and `(1,0)` both stepping
one cell right, the computed destinations `(1,0)` and `(2,0)` are distinct (the
claim's no-collision hypothesis holds, proven as the injectivity premise), yet
under the complete schedule `ctOrder` the occupied-cell count drops from 2 to
1: the first particle moves onto the cell the second is vacating and is then
erased by the second thread's source clear. -/
theorem update_kernel_collision_free_not_conserving :
    ¬ ((∀ x y : Nat, x < GRID_SIZE → y < GRID_SIZE → (x, y) ∈ ctOrder) →
        (∀ p ∈ ctOrder, p.1 < GRID_SIZE ∧ p.2 < GRID_SIZE) →
        (∀ p q : Nat × Nat, p.1 < GRID_SIZE → p.2 < GRID_SIZE → q.1 < GRID_SIZE →
          q.2 < GRID_SIZE → isMover stTwo zeroVecField 1 0 p.1 p.2 →
          isMover stTwo zeroVecField 1 0 q.1 q.2 →
          tgtPos stTwo zeroVecField 1 0 p.1 p.2 = tgtPos stTwo zeroVecField 1 0 q.1 q.2 →
          p = q) →
        occCount (update_kernel_run stTwo zeroVecField 1 0 ctOrder).particles =
          occCount stTwo.particles) := by
  intro hclaim
  have hinj : ∀ p q : Nat × Nat, p.1 < GRID_SIZE → p.2 < GRID_SIZE → q.1 < GRID_SIZE →
      q.2 < GRID_SIZE → isMover stTwo zeroVecField 1 0 p.1 p.2 →
      isMover stTwo zeroVecField 1 0 q.1 q.2 →
      tgtPos stTwo zeroVecField 1 0 p.1 p.2 = tgtPos stTwo zeroVecField 1 0 q.1 q.2 →
      p = q := by
    intro p q _ _ _ _ hpm hqm heq
    rw [stTwo_tgtPos, stTwo_tgtPos] at heq
    obtain ⟨e1, e2⟩ := Prod.mk.injEq .. ▸ heq
    apply Prod.ext <;> omega
  have h := hclaim ctOrder_complete ctOrder_range hinj
  rw [stTwo_count_final, stTwo_count_init] at h
  exact absurd h (by norm_num)

theorem stRight_particles_iff (a b : Nat) :
    stRight.particles a b = true ↔ a = 0 ∧ b = 0 := by
  show (a == 0 && b == 0) = true ↔ _
  simp

theorem stRight_target00 : targetOf stRight zeroVecField 1 0 0 0 = (1, 0) := by
  unfold targetOf velOf stRight zeroVecField GAIN
  norm_num [stepOf_one _ (rand_f32_nonneg 0 0 0 0), stepOf_zero _ (rand_f32_nonneg 0 0 0 1)]

theorem stRight_tgtPos00 : tgtPos stRight zeroVecField 1 0 0 0 = (1, 0) := by
  unfold tgtPos
  rw [stRight_target00]
  rfl

theorem stRight_targetInGrid : targetInGrid stRight zeroVecField 1 0 0 0 := by
  intro hc
  rw [stRight_target00] at hc
  rcases hc with h | h | h | h <;> norm_num [GRID_SIZE] at h

/-- C4 (amended): for every occupied cell whose computed destination is in
range and differs from its position, the thread's scatter writes are exactly
the pair: set occupancy at the destination, then clear occupancy at the source;
no velocity is stored anywhere — the velocity buffer after the dispatch equals
the one before (the velocity write is commented out in the source). -/
theorem update_kernel_move_writes (st : PState) (field : VecField) (dt : ℚ) (t : Nat)
    (order : List (Nat × Nat)) (x y : Nat)
    (hocc : st.particles x y = true)
    (hin : targetInGrid st field dt t x y)
    (hne : tgtPos st field dt t x y ≠ (x, y)) :
    threadWrites st field dt t x y =
      [(tgtPos st field dt t x y, true), ((x, y), false)] ∧
      (update_kernel_run st field dt t order).particle_velocity = st.particle_velocity := by
  refine ⟨?_, rfl⟩
  unfold threadWrites
  rw [if_pos hocc, if_neg hin, if_pos hne]

/-- Concrete instance of the amended C4: a particle at the origin stepping one
cell right produces exactly the set/clear write pair and leaves the velocity
buffer unchanged. -/
theorem update_kernel_move_writes_witness :
    threadWrites stRight zeroVecField 1 0 0 0 =
      [(tgtPos stRight zeroVecField 1 0 0 0, true), ((0, 0), false)] ∧
      (update_kernel_run stRight zeroVecField 1 0 rowMajor).particle_velocity =
        stRight.particle_velocity :=
  update_kernel_move_writes stRight zeroVecField 1 0 rowMajor 0 0 rfl
    stRight_targetInGrid
    (by rw [stRight_tgtPos00]; simp)

/-- C4 counterexample: the particle at the origin moves to `(1,0)` with updated
velocity `(1,0)`, yet after the dispatch the velocity stored at the destination
cell is still the old `(0,0)`: the kernel never writes the velocity buffer. -/
theorem update_kernel_velocity_not_stored :
    stRight.particles 0 0 = true ∧
      targetInGrid stRight zeroVecField 1 0 0 0 ∧
      tgtPos stRight zeroVecField 1 0 0 0 = (1, 0) ∧
      velOf stRight zeroVecField 0 0 = (1, 0) ∧
      (update_kernel_run stRight zeroVecField 1 0 rowMajor).particle_velocity 1 0 ≠
        (1, 0) := by
  refine ⟨rfl, stRight_targetInGrid, stRight_tgtPos00, ?_, ?_⟩
  · unfold velOf stRight zeroVecField GAIN
    norm_num
  · show stRight.particle_velocity 1 0 ≠ (1, 0)
    unfold stRight
    norm_num [Prod.ext_iff]

/-- Concrete instance of the amended C5: a single particle stepping one cell
right, dispatched under the complete row-major schedule, conserves the
occupied-cell count and lands exactly at its destination. -/
theorem update_kernel_conserves_particles_witness :
    occCount (update_kernel_run stRight zeroVecField 1 0 rowMajor).particles =
        occCount stRight.particles ∧
      ∀ x y : Nat, x < GRID_SIZE → y < GRID_SIZE → stRight.particles x y = true →
        (isMover stRight zeroVecField 1 0 x y →
          (update_kernel_run stRight zeroVecField 1 0 rowMajor).particles
              (tgtPos stRight zeroVecField 1 0 x y).1
              (tgtPos stRight zeroVecField 1 0 x y).2 = true ∧
            (update_kernel_run stRight zeroVecField 1 0 rowMajor).particles x y = false) ∧
          (¬ isMover stRight zeroVecField 1 0 x y →
            (update_kernel_run stRight zeroVecField 1 0 rowMajor).particles x y = true) :=
  update_kernel_conserves_particles stRight zeroVecField 1 0 rowMajor
    (fun x y hx hy => (mem_rowMajor (x, y)).mpr ⟨hx, hy⟩)
    (fun p hp => (mem_rowMajor p).mp hp)
    (by
      intro p q hp1 hp2 hq1 hq2 hpm hqm _
      have hp0 := (stRight_particles_iff p.1 p.2).mp hpm.1
      have hq0 := (stRight_particles_iff q.1 q.2).mp hqm.1
      apply Prod.ext <;> omega)
    (by
      intro a b ha hb hm
      have h0 := (stRight_particles_iff a b).mp hm.1
      obtain ⟨h1, h2⟩ := h0
      subst h1
      subst h2
      rw [stRight_tgtPos00]
      rfl)

theorem stLeft_target : targetOf stLeft zeroVecField 1 0 0 0 = (-1, 0) := by
  unfold targetOf velOf stLeft zeroVecField GAIN
  norm_num [stepOf_neg_one _ (rand_f32_nonneg 0 0 0 0), stepOf_zero _ (rand_f32_nonneg 0 0 0 1)]

/-- Concrete instance of C8: a particle at the origin pushed one cell off the
left edge performs no writes, stays occupied, and its velocity is untouched. -/
theorem update_kernel_out_of_range_drops_witness :
    threadWrites stLeft zeroVecField 1 0 0 0 = [] ∧
      (update_kernel_run stLeft zeroVecField 1 0 [(0, 0)]).particles 0 0 = true ∧
      (update_kernel_run stLeft zeroVecField 1 0 [(0, 0)]).particle_velocity =
        stLeft.particle_velocity :=
  update_kernel_out_of_range_drops stLeft zeroVecField 1 0 [(0, 0)] 0 0 rfl
    (fun hc => hc (Or.inl (by rw [stLeft_target]; norm_num)))

/-- C2 counterexample: at level 0 the `apply_deltas` dispatch covers
`[0, (GRID_SIZE >> 0) + 1)²`, and its thread at `(GRID_SIZE, 0)` reads the
divergence-residual buffer at `(GRID_SIZE, 0)`, a coordinate outside
`[0, GRID_SIZE >> 0)`. -/
theorem apply_deltas_reads_outside_level_range :
    GRID_SIZE < GRID_SIZE >>> 0 + 1 ∧
      (GRID_SIZE, 0) ∈ apply_deltas_divergence_reads GRID_SIZE 0 ∧
      ¬ GRID_SIZE < GRID_SIZE >>> 0 := by
  refine ⟨by decide, ?_, by decide⟩
  unfold apply_deltas_divergence_reads
  exact List.mem_append_left _ (List.mem_append_left _ (List.mem_singleton.mpr rfl))

/-- C2 (amended): every field or residual-buffer coordinate read by the
residual-solve kernels (`compute_divergence`, `compute_curl`) and the
correction kernel (`apply_deltas`) at level `L`, from threads inside their
respective dispatch ranges, lies within `[0, (GRID_SIZE >> L) + 1)` per axis —
one row and column beyond `[0, GRID_SIZE >> L)` — and every particle
destination or source cell written by `update_kernel` lies within
`[0, GRID_SIZE)`. -/
theorem solver_reads_within_extended_bounds (level x y : Nat) (p : Nat × Nat)
    (st : PState) (field : VecField) (dt : ℚ) (t : Nat) (w : (Nat × Nat) × Bool) :
    (x < GRID_SIZE >>> level → y < GRID_SIZE >>> level →
      p ∈ compute_divergence_field_reads x y →
      p.1 ≤ GRID_SIZE >>> level ∧ p.2 ≤ GRID_SIZE >>> level) ∧
      (x < GRID_SIZE >>> level - 1 → y < GRID_SIZE >>> level - 1 →
        p ∈ compute_curl_field_reads x y →
        p.1 ≤ GRID_SIZE >>> level ∧ p.2 ≤ GRID_SIZE >>> level) ∧
      (x < GRID_SIZE >>> level + 1 → y < GRID_SIZE >>> level + 1 →
        p ∈ apply_deltas_divergence_reads x y →
        p.1 ≤ GRID_SIZE >>> level ∧ p.2 ≤ GRID_SIZE >>> level) ∧
      (x < GRID_SIZE >>> level + 1 → y < GRID_SIZE >>> level + 1 →
        p ∈ apply_deltas_curl_reads level x y →
        p.1 ≤ GRID_SIZE >>> level ∧ p.2 ≤ GRID_SIZE >>> level) ∧
      (x < GRID_SIZE → y < GRID_SIZE → w ∈ threadWrites st field dt t x y →
        w.1.1 < GRID_SIZE ∧ w.1.2 < GRID_SIZE) := by
  have pair_le : ∀ a b s : Nat, a ≤ s → b ≤ s → (a, b).1 ≤ s ∧ (a, b).2 ≤ s :=
    fun a b s h1 h2 => ⟨h1, h2⟩
  refine ⟨?_, ?_, ?_, ?_, ?_⟩
  · intro hx hy hp
    simp only [compute_divergence_field_reads, List.mem_cons, List.mem_singleton,
      List.not_mem_nil, or_false] at hp
    rcases hp with rfl | rfl | rfl <;> exact pair_le _ _ _ (by omega) (by omega)
  · intro hx hy hp
    simp only [compute_curl_field_reads, List.mem_cons, List.mem_singleton,
      List.not_mem_nil, or_false] at hp
    rcases hp with rfl | rfl | rfl <;> exact pair_le _ _ _ (by omega) (by omega)
  · intro hx hy hp
    unfold apply_deltas_divergence_reads at hp
    rw [List.mem_append, List.mem_append] at hp
    rcases hp with (hp | hp) | hp
    · rw [List.mem_singleton] at hp
      subst hp
      exact pair_le _ _ _ (by omega) (by omega)
    · split_ifs at hp with h
      · rw [List.mem_singleton] at hp
        subst hp
        exact pair_le _ _ _ (by omega) (by omega)
      · simp at hp
    · split_ifs at hp with h
      · rw [List.mem_singleton] at hp
        subst hp
        exact pair_le _ _ _ (by omega) (by omega)
      · simp at hp
  · intro hx hy hp
    unfold apply_deltas_curl_reads at hp
    rw [List.mem_append, List.mem_append] at hp
    rcases hp with (hp | hp) | hp <;> split_ifs at hp with h <;>
      first
        | (rw [List.mem_singleton] at hp
           subst hp
           exact pair_le _ _ _ (by omega) (by omega))
        | simp at hp
  · intro hx hy hw
    unfold threadWrites at hw
    split_ifs at hw with h1 h2 h3
    · simp at hw
    · simp only [List.mem_cons, List.mem_singleton, List.not_mem_nil, or_false] at hw
      rcases hw with rfl | rfl
      · exact tgtPos_lt st field dt t x y h2
      · exact ⟨hx, hy⟩
    · simp at hw
    · simp at hw

/-- Concrete instance of the amended C2: the right-neighbor field read of the
`compute_divergence` thread at `(5,7)` of level 0 stays within the extended
bound. -/
theorem solver_reads_within_extended_bounds_witness :
    ((6 : Nat), (7 : Nat)).1 ≤ GRID_SIZE >>> 0 ∧
      ((6 : Nat), (7 : Nat)).2 ≤ GRID_SIZE >>> 0 :=
  (solver_reads_within_extended_bounds 0 5 7 (6, 7) stLeft zeroVecField 1 0
      ((5, 7), false)).1 (by decide) (by decide) (by decide)

/-- C7 counterexample: pressing only the right button leaves the charge plane
untouched (it stays `0`, not the positive charge value `CHARGE`); the write
goes to the magnet plane instead. -/
theorem update_cursor_right_button_no_charge :
    (update_cursor ⟨false, true, false⟩ (3, 4) zeroInject).charges 3 4 ≠ CHARGE ∧
      (update_cursor ⟨false, true, false⟩ (3, 4) zeroInject).charges 3 4 = 0 ∧
      (update_cursor ⟨false, true, false⟩ (3, 4) zeroInject).magnets 3 4 = CHARGE := by
  refine ⟨?_, ?_, ?_⟩ <;>
    norm_num [update_cursor, write_magnet_kernel, zeroInject, CHARGE]

/-- C7 (amended): the left button overwrites `charge[0][cell]` with the fixed
negative value `-CHARGE`, the right button overwrites `magnet[0][cell]` with
the fixed positive value `CHARGE`, and the middle button sets
`occupied[cell] = true`; each write is an immediate unconditional overwrite of
the previous value (the result does not depend on the stored state), and an
unpressed button leaves its plane untouched. -/
theorem update_cursor_writes (b : Buttons) (pos : Nat × Nat) (s : InjectState) :
    (b.left = true → (update_cursor b pos s).charges pos.1 pos.2 = -CHARGE) ∧
      (b.right = true → (update_cursor b pos s).magnets pos.1 pos.2 = CHARGE) ∧
      (b.middle = true → (update_cursor b pos s).particles pos.1 pos.2 = true) ∧
      (b.left = false → (update_cursor b pos s).charges = s.charges) ∧
      (b.right = false → (update_cursor b pos s).magnets = s.magnets) ∧
      (b.middle = false → (update_cursor b pos s).particles = s.particles) := by
  rcases b with ⟨bl, br, bm⟩
  cases bl <;> cases br <;> cases bm <;>
    simp [update_cursor, write_charge_kernel, write_magnet_kernel, write_particle_kernel,
      Prod.mk.eta]

/-- Concrete instance of the amended C7 with all three buttons pressed. -/
theorem update_cursor_writes_witness :
    (update_cursor ⟨true, true, true⟩ (3, 4) zeroInject).charges 3 4 = -CHARGE ∧
      (update_cursor ⟨true, true, true⟩ (3, 4) zeroInject).magnets 3 4 = CHARGE ∧
      (update_cursor ⟨true, true, true⟩ (3, 4) zeroInject).particles 3 4 = true :=
  ⟨(update_cursor_writes ⟨true, true, true⟩ (3, 4) zeroInject).1 rfl,
    (update_cursor_writes ⟨true, true, true⟩ (3, 4) zeroInject).2.1 rfl,
    (update_cursor_writes ⟨true, true, true⟩ (3, 4) zeroInject).2.2.1 rfl⟩

theorem update_keyboard_viewed_layer_lt (s : KeyState) (k : Key) (rt : Runtime)
    (h : rt.viewed_layer < DOWNSCALE_COUNT) :
    (update_keyboard s k rt).viewed_layer < DOWNSCALE_COUNT := by
  cases s with
  | Released => exact h
  | Pressed =>
    cases k with
    | KeyL =>
      show (if DOWNSCALE_COUNT ≤ rt.viewed_layer + 1 then
          { rt with viewed_layer := 0 }
        else { rt with viewed_layer := rt.viewed_layer + 1 }).viewed_layer < DOWNSCALE_COUNT
      split_ifs with hc
      · show (0 : Nat) < DOWNSCALE_COUNT
        norm_num [DOWNSCALE_COUNT]
      · show rt.viewed_layer + 1 < DOWNSCALE_COUNT
        omega
    | KeyK =>
      show (if rt.viewed_layer = 0 then { rt with viewed_layer := DOWNSCALE_COUNT - 1 }
        else { rt with viewed_layer := rt.viewed_layer - 1 }).viewed_layer < DOWNSCALE_COUNT
      split_ifs with hc
      · show DOWNSCALE_COUNT - 1 < DOWNSCALE_COUNT
        norm_num [DOWNSCALE_COUNT]
      · show rt.viewed_layer - 1 < DOWNSCALE_COUNT
        omega
    | KeyD => exact h
    | KeyM => exact h
    | other => exact h

theorem foldl_viewed_layer_lt (evs : List (KeyState × Key)) (rt : Runtime)
    (h : rt.viewed_layer < DOWNSCALE_COUNT) :
    (evs.foldl (fun rt e => update_keyboard e.1 e.2 rt) rt).viewed_layer <
      DOWNSCALE_COUNT := by
  induction evs generalizing rt with
  | nil => exact h
  | cons e es ih => exact ih _ (update_keyboard_viewed_layer_lt e.1 e.2 rt h)

/-- C10: starting from the default runtime state, after any sequence of key
events the inspected layer stays strictly below `DOWNSCALE_COUNT`; pressing
`L` at layer `DOWNSCALE_COUNT - 1` wraps to 0, and pressing `K` at layer 0
wraps to `DOWNSCALE_COUNT - 1`. -/
theorem viewed_layer_always_valid (evs : List (KeyState × Key)) (rt1 rt2 : Runtime)
    (h1 : rt1.viewed_layer = DOWNSCALE_COUNT - 1) (h2 : rt2.viewed_layer = 0) :
    (evs.foldl (fun rt e => update_keyboard e.1 e.2 rt) Runtime.default).viewed_layer <
        DOWNSCALE_COUNT ∧
      (update_keyboard KeyState.Pressed Key.KeyL rt1).viewed_layer = 0 ∧
      (update_keyboard KeyState.Pressed Key.KeyK rt2).viewed_layer =
        DOWNSCALE_COUNT - 1 := by
  refine ⟨foldl_viewed_layer_lt evs Runtime.default (by norm_num [Runtime.default, DOWNSCALE_COUNT]),
    ?_, ?_⟩
  · unfold update_keyboard
    rw [h1]
    simp [DOWNSCALE_COUNT]
  · unfold update_keyboard
    rw [if_pos h2]

/-- Concrete instance of C10: one `L` press from the default state, and the
two wrap cases at the boundary layers. -/
theorem viewed_layer_always_valid_witness :
    ([(KeyState.Pressed, Key.KeyL)].foldl (fun rt e => update_keyboard e.1 e.2 rt)
        Runtime.default).viewed_layer < DOWNSCALE_COUNT ∧
      (update_keyboard KeyState.Pressed Key.KeyL
          ⟨0, DOWNSCALE_COUNT - 1, View.Field, true⟩).viewed_layer = 0 ∧
      (update_keyboard KeyState.Pressed Key.KeyK
          ⟨0, 0, View.Field, true⟩).viewed_layer = DOWNSCALE_COUNT - 1 :=
  viewed_layer_always_valid [(KeyState.Pressed, Key.KeyL)]
    ⟨0, DOWNSCALE_COUNT - 1, View.Field, true⟩ ⟨0, 0, View.Field, true⟩ rfl rfl

end Limbo

